import Mathlib

/-!
Verification of `bevy_egui` (Greatness7 fork) input routing, pass scheduling
and texture-table code against its natural-language specification.

The Lean definitions below are shallow embeddings of the Rust source:
* `EguiUserTextures` / `add_image` / `remove_image` — `src/lib.rs`
* `run_egui_context_pass_loop` — `run_egui_context_pass_loop_system`, `src/lib.rs`
* `iterNext` / `drainIter` — `EguiContextsEventIterator::next`, `src/input.rs`
* `ModifierKeysState` / `keyboardTextEvents` — `src/input.rs`
* `writeTouchEvent` — `write_touch_event`, `src/input.rs`
* focus-slot updates — `write_pointer_button_events_system`,
  `write_window_touch_events_system`, `src/input.rs`

Entities, window ids and schedule labels are modelled as naturals; hash maps
are modelled as association lists (iteration order of a `HashSet` is
unspecified upstream, so any fixed order is a faithful instance); machine
integers that can overflow (`u64` texture ids guarded by `checked_add`) are
modelled as `Nat`, with the overflow panic unreachable in these claims.
Fallible code (Rust `panic!` / `expect`) is modelled with `Option`.
-/

set_option autoImplicit false

namespace BevyEgui

/-! ### Texture handle table (`EguiUserTextures`, src/lib.rs) -/

/-- Model of the `EguiUserTextures` resource: `textures` is the
`HashMap<Handle<Image>, u64>` as an association list (handles are naturals),
`free_list` is the `Vec<u64>` stack with its head modelling the end of the
vector (`Vec::push`/`Vec::pop` operate on the head here). -/
structure EguiUserTextures where
  textures : List (Nat × Nat)
  free_list : List Nat
deriving Repr, DecidableEq

/-- `Default for EguiUserTextures`: empty map, free list `vec![0]`. -/
def EguiUserTextures.default : EguiUserTextures :=
  { textures := [], free_list := [0] }

/-- `HashMap` lookup on the association-list model. -/
def lookupHandle (l : List (Nat × Nat)) (h : Nat) : Option Nat :=
  match l with
  | [] => none
  | (k, v) :: rest => if k = h then some v else lookupHandle rest h

/-- `HashMap::remove` on the association-list model. -/
def removeHandle (l : List (Nat × Nat)) (h : Nat) : List (Nat × Nat) :=
  match l with
  | [] => []
  | (k, v) :: rest => if k = h then rest else (k, v) :: removeHandle rest h

/-- `EguiUserTextures::add_image`: if the handle is present, return its id and
leave the state unchanged (`entry(..).or_insert_with`); otherwise pop an id
from the free list (`none` models the
`expect("free list must contain at least 1 element")` panic), and if the pop
emptied the free list, push the next fresh id `id + 1`
(`checked_add(1).expect("out of ids")` is `Nat` addition here). -/
def EguiUserTextures.add_image (s : EguiUserTextures) (h : Nat) :
    Option (Nat × EguiUserTextures) :=
  match lookupHandle s.textures h with
  | some id => some (id, s)
  | none =>
    match s.free_list with
    | [] => none
    | id :: rest =>
      let fl := if rest.isEmpty then [id + 1] else rest
      some (id, { textures := (h, id) :: s.textures, free_list := fl })

/-- `EguiUserTextures::remove_image`: remove the handle from the map and, if it
was present, push its id back onto the free list. -/
def EguiUserTextures.remove_image (s : EguiUserTextures) (h : Nat) :
    Option Nat × EguiUserTextures :=
  match lookupHandle s.textures h with
  | some id =>
    (some id, { textures := removeHandle s.textures h, free_list := id :: s.free_list })
  | none => (none, s)

/-- `EguiUserTextures::image_id`. -/
def EguiUserTextures.image_id (s : EguiUserTextures) (h : Nat) : Option Nat :=
  lookupHandle s.textures h

/-- One user-facing operation on the texture table. -/
inductive TexOp where
  | add (h : Nat)
  | remove (h : Nat)
deriving Repr, DecidableEq

/-- Apply one operation; `none` models the panic inside `add_image`. -/
def applyTexOp (s : EguiUserTextures) (op : TexOp) : Option EguiUserTextures :=
  match op with
  | .add h => (s.add_image h).map Prod.snd
  | .remove h => some (s.remove_image h).2

/-- Run a sequence of operations. -/
def runTexOps (s : EguiUserTextures) : List TexOp → Option EguiUserTextures
  | [] => some s
  | op :: rest =>
    match applyTexOp s op with
    | none => none
    | some s2 => runTexOps s2 rest

/-- Ids currently associated with live handles. -/
def texValues (s : EguiUserTextures) : List Nat := s.textures.map Prod.snd

/-- Well-formedness invariant of the texture table: handle keys are distinct;
the free list is non-empty and its bottom element (the last of the `Vec`,
modelled as the last of the list) is a fresh bound `M`: live ids together with
the recycled part of the free list are pairwise distinct and all below `M`. -/
def TexInv (s : EguiUserTextures) : Prop :=
  (s.textures.map Prod.fst).Nodup ∧
  s.free_list ≠ [] ∧
  (texValues s ++ s.free_list.dropLast).Nodup ∧
  ∀ x ∈ texValues s ++ s.free_list.dropLast, x < s.free_list.getLastD 0

instance (s : EguiUserTextures) : Decidable (TexInv s) := by
  unfold TexInv; infer_instance

theorem texInv_default : TexInv EguiUserTextures.default := by decide

theorem lookupHandle_eq_none {l : List (Nat × Nat)} {h : Nat} :
    lookupHandle l h = none ↔ h ∉ l.map Prod.fst := by
  induction l with
  | nil => simp [lookupHandle]
  | cons p rest ih =>
    obtain ⟨k, v⟩ := p
    by_cases hk : k = h
    · subst hk; simp [lookupHandle]
    · simp [lookupHandle, hk, ih, Ne.symm hk]

theorem removeHandle_sublist (l : List (Nat × Nat)) (h : Nat) :
    List.Sublist (removeHandle l h) l := by
  induction l with
  | nil => simp [removeHandle]
  | cons p rest ih =>
    obtain ⟨k, v⟩ := p
    by_cases hk : k = h
    · simpa [removeHandle, hk] using List.sublist_cons_self (k, v) rest
    · simpa [removeHandle, hk] using ih.cons₂ (k, v)

theorem perm_removeHandle {l : List (Nat × Nat)} {h id : Nat}
    (hl : lookupHandle l h = some id) :
    List.Perm l ((h, id) :: removeHandle l h) := by
  induction l with
  | nil => simp [lookupHandle] at hl
  | cons p rest ih =>
    obtain ⟨k, v⟩ := p
    by_cases hk : k = h
    · subst hk
      have hl2 : v = id := by simpa [lookupHandle] using hl
      subst hl2
      have hrm : removeHandle ((k, v) :: rest) k = rest := by simp [removeHandle]
      rw [hrm]
    · simp only [lookupHandle, if_neg hk] at hl
      have hperm := ih hl
      simp only [removeHandle, if_neg hk]
      exact (hperm.cons (k, v)).trans (List.Perm.swap _ _ _)

theorem getLastD_ne_default (l : List Nat) (hne : l ≠ []) (d1 d2 : Nat) :
    l.getLastD d1 = l.getLastD d2 := by
  cases l with
  | nil => exact absurd rfl hne
  | cons a t => rw [List.getLastD_cons, List.getLastD_cons]

theorem texInv_add {s : EguiUserTextures} {h id : Nat} {s2 : EguiUserTextures}
    (hinv : TexInv s) (hadd : s.add_image h = some (id, s2)) : TexInv s2 := by
  obtain ⟨hk, hfne, hnd, hlt⟩ := hinv
  unfold EguiUserTextures.add_image at hadd
  cases hl : lookupHandle s.textures h with
  | some i =>
    rw [hl] at hadd
    simp only [Option.some.injEq, Prod.mk.injEq] at hadd
    exact hadd.2 ▸ ⟨hk, hfne, hnd, hlt⟩
  | none =>
    rw [hl] at hadd
    have hknew : h ∉ s.textures.map Prod.fst := lookupHandle_eq_none.mp hl
    cases hf : s.free_list with
    | nil => rw [hf] at hadd; simp at hadd
    | cons i0 rest =>
      rw [hf] at hadd
      simp only [Option.some.injEq, Prod.mk.injEq] at hadd
      obtain ⟨hid, hs2⟩ := hadd
      subst hid
      rw [hf] at hnd hlt
      cases rest with
      | nil =>
        simp only [List.isEmpty_nil, if_true] at hs2
        subst hs2
        simp only [List.dropLast_single, List.append_nil] at hnd hlt
        have hlast0 : ([i0] : List Nat).getLastD 0 = i0 := rfl
        rw [hlast0] at hlt
        refine ⟨List.nodup_cons.mpr ⟨hknew, hk⟩, by simp, ?_, ?_⟩
        · show ((i0 :: texValues s) ++ ([i0 + 1] : List Nat).dropLast).Nodup
          simp only [List.dropLast_single, List.append_nil]
          exact List.nodup_cons.mpr
            ⟨fun hmem => Nat.lt_irrefl i0 (hlt i0 hmem), hnd⟩
        · intro x hx
          show x < ([i0 + 1] : List Nat).getLastD 0
          simp only [List.dropLast_single, List.append_nil] at hx
          have hl1 : ([i0 + 1] : List Nat).getLastD 0 = i0 + 1 := rfl
          rw [hl1]
          have hx3 : x = i0 ∨ x ∈ List.map Prod.snd s.textures := by
            simpa [texValues] using hx
          rcases hx3 with rfl | hx2
          · exact Nat.lt_succ_self x
          · exact Nat.lt_succ_of_lt (hlt x hx2)
      | cons r rs =>
        simp only [List.isEmpty_cons, Bool.false_eq_true, if_false] at hs2
        subst hs2
        have hdrop : (i0 :: r :: rs).dropLast = i0 :: (r :: rs).dropLast := rfl
        have hlast : (i0 :: r :: rs).getLastD 0 = (r :: rs).getLastD 0 := by
          rw [List.getLastD_cons]
          exact getLastD_ne_default _ (by simp) _ _
        rw [hdrop] at hnd hlt
        rw [hlast] at hlt
        have hperm : List.Perm (texValues s ++ i0 :: (r :: rs).dropLast)
            (i0 :: (texValues s ++ (r :: rs).dropLast)) := List.perm_middle
        refine ⟨List.nodup_cons.mpr ⟨hknew, hk⟩, by simp, ?_, ?_⟩
        · show ((i0 :: texValues s) ++ (r :: rs).dropLast).Nodup
          simpa using hperm.nodup_iff.mp hnd
        · intro x hx
          show x < (r :: rs).getLastD 0
          have hx2 : x ∈ texValues s ++ i0 :: (r :: rs).dropLast := by
            refine (hperm.mem_iff (a := x)).mpr ?_
            simpa [texValues] using hx
          exact hlt x hx2

theorem texInv_remove {s : EguiUserTextures} (h : Nat)
    (hinv : TexInv s) : TexInv (s.remove_image h).2 := by
  obtain ⟨hk, hfne, hnd, hlt⟩ := hinv
  cases hl : lookupHandle s.textures h with
  | none =>
    have hres : (s.remove_image h).2 = s := by
      simp [EguiUserTextures.remove_image, hl]
    rw [hres]
    exact ⟨hk, hfne, hnd, hlt⟩
  | some id =>
    have hres : (s.remove_image h).2 =
        { textures := removeHandle s.textures h, free_list := id :: s.free_list } := by
      simp [EguiUserTextures.remove_image, hl]
    rw [hres]
    have hperm : List.Perm s.textures ((h, id) :: removeHandle s.textures h) :=
      perm_removeHandle hl
    have hvalperm : List.Perm (texValues s)
        (id :: List.map Prod.snd (removeHandle s.textures h)) := by
      simpa [texValues] using hperm.map Prod.snd
    have hdrop : (id :: s.free_list).dropLast = id :: s.free_list.dropLast := by
      cases hf : s.free_list with
      | nil => exact absurd hf hfne
      | cons a t => rfl
    have hlast : (id :: s.free_list).getLastD 0 = s.free_list.getLastD 0 := by
      rw [List.getLastD_cons]
      exact getLastD_ne_default _ hfne _ _
    have hmid : List.Perm
        (List.map Prod.snd (removeHandle s.textures h) ++ id :: s.free_list.dropLast)
        (id :: (List.map Prod.snd (removeHandle s.textures h) ++ s.free_list.dropLast)) :=
      List.perm_middle
    have hall : List.Perm (texValues s ++ s.free_list.dropLast)
        (id :: (List.map Prod.snd (removeHandle s.textures h) ++ s.free_list.dropLast)) := by
      have := hvalperm.append_right s.free_list.dropLast
      simpa using this
    refine ⟨?_, by simp, ?_, ?_⟩
    · exact hk.sublist (List.Sublist.map Prod.fst (removeHandle_sublist s.textures h))
    · show (List.map Prod.snd (removeHandle s.textures h) ++
          (id :: s.free_list).dropLast).Nodup
      rw [hdrop]
      exact hmid.nodup_iff.mpr (hall.nodup_iff.mp hnd)
    · intro x hx
      show x < (id :: s.free_list).getLastD 0
      rw [hlast]
      refine hlt x ?_
      refine (hall.mem_iff (a := x)).mpr ?_
      refine (hmid.mem_iff (a := x)).mp ?_
      simpa [texValues, hdrop] using hx

theorem texInv_applyTexOp {s s2 : EguiUserTextures} {op : TexOp}
    (hinv : TexInv s) (happ : applyTexOp s op = some s2) : TexInv s2 := by
  cases op with
  | add h =>
    simp only [applyTexOp] at happ
    cases hadd : s.add_image h with
    | none => rw [hadd] at happ; simp at happ
    | some p =>
      obtain ⟨i, s3⟩ := p
      rw [hadd] at happ
      simp only [Option.map_some', Option.some.injEq] at happ
      exact happ ▸ texInv_add hinv hadd
  | remove h =>
    simp only [applyTexOp, Option.some.injEq] at happ
    exact happ ▸ texInv_remove h hinv

theorem texValues_nodup_of_inv {s : EguiUserTextures} (hinv : TexInv s) :
    (texValues s).Nodup :=
  ((List.nodup_append.mp hinv.2.2.1).1)

theorem free_nonempty_applyTexOp {s : EguiUserTextures} (hne : s.free_list ≠ [])
    (op : TexOp) :
    ∃ s2, applyTexOp s op = some s2 ∧ s2.free_list ≠ [] := by
  cases op with
  | add h =>
    cases hl : lookupHandle s.textures h with
    | some id =>
      refine ⟨s, ?_, hne⟩
      simp [applyTexOp, EguiUserTextures.add_image, hl]
    | none =>
      cases hf : s.free_list with
      | nil => exact absurd hf hne
      | cons i0 rest =>
        refine ⟨{ textures := (h, i0) :: s.textures,
                  free_list := if rest.isEmpty then [i0 + 1] else rest }, ?_, ?_⟩
        · simp [applyTexOp, EguiUserTextures.add_image, hl, hf]
        · cases rest <;> simp
  | remove h =>
    cases hl : lookupHandle s.textures h with
    | some id =>
      refine ⟨{ textures := removeHandle s.textures h,
                free_list := id :: s.free_list }, ?_, by simp⟩
      simp [applyTexOp, EguiUserTextures.remove_image, hl]
    | none =>
      refine ⟨s, ?_, hne⟩
      simp [applyTexOp, EguiUserTextures.remove_image, hl]

theorem free_nonempty_runTexOps {s : EguiUserTextures} (hne : s.free_list ≠ [])
    (ops : List TexOp) :
    ∃ s2, runTexOps s ops = some s2 ∧ s2.free_list ≠ [] := by
  induction ops generalizing s with
  | nil => exact ⟨s, rfl, hne⟩
  | cons op rest ih =>
    obtain ⟨s2, happ, hne2⟩ := free_nonempty_applyTexOp hne op
    obtain ⟨s3, hrun, hne3⟩ := ih hne2
    exact ⟨s3, by simp [runTexOps, happ, hrun], hne3⟩

/-- Claim C10: starting from the default texture table (whose free list is
initialized to contain the single id 0), after every finite sequence of
`add_image` and `remove_image` operations the free list is non-empty, so the
pop inside `add_image` never hits its "free list must contain at least 1
element" panic branch (`runTexOps` never returns `none`). -/
theorem C10_texture_free_list_safety (ops : List TexOp) :
    ∃ s, runTexOps EguiUserTextures.default ops = some s ∧ s.free_list ≠ [] :=
  free_nonempty_runTexOps (by simp [EguiUserTextures.default]) ops

/-- Claim C9: texture handle table. `add_image` is idempotent on a handle that
is already present (same id, state unchanged, no new slot); `remove_image`
returns the handle's id to the free list; every operation preserves the
well-formedness invariant `TexInv`, under which no id is associated with two
live handles at once; and the concrete recycling trace of the spec holds:
add(A)→0; remove(A); add(B)→0 (reused); then add(A) twice yields id 1 both
times with no state change on the repeat. -/
theorem C9_texture_handle_table :
    (∀ (s : EguiUserTextures) (h id : Nat),
      lookupHandle s.textures h = some id → s.add_image h = some (id, s)) ∧
    (∀ (s : EguiUserTextures) (h id : Nat),
      lookupHandle s.textures h = some id →
        (s.remove_image h).1 = some id ∧
        (s.remove_image h).2.free_list = id :: s.free_list) ∧
    (∀ (s s2 : EguiUserTextures) (op : TexOp),
      TexInv s → applyTexOp s op = some s2 → TexInv s2) ∧
    (∀ s : EguiUserTextures, TexInv s → (texValues s).Nodup) ∧
    (∃ s1 s2 s3 s4 : EguiUserTextures,
      EguiUserTextures.default.add_image 0 = some (0, s1) ∧
      s1.remove_image 0 = (some 0, s2) ∧
      s2.add_image 1 = some (0, s3) ∧
      s3.add_image 0 = some (1, s4) ∧
      s4.add_image 0 = some (1, s4)) := by
  refine ⟨?_, ?_, ?_, ?_, ?_⟩
  · intro s h id hl
    simp [EguiUserTextures.add_image, hl]
  · intro s h id hl
    simp [EguiUserTextures.remove_image, hl]
  · intro s s2 op hinv happ
    exact texInv_applyTexOp hinv happ
  · intro s hinv
    exact texValues_nodup_of_inv hinv
  · exact ⟨⟨[(0, 0)], [1]⟩, ⟨[], [0, 1]⟩, ⟨[(1, 0)], [1]⟩, ⟨[(0, 1), (1, 0)], [2]⟩,
      by decide, by decide, by decide, by decide, by decide⟩

/-- Witness for C9 at concrete inputs: idempotent re-add of handle 5 with id 3,
removal pushing id 3 back, invariant preservation from the default state and
value-distinctness at a concrete well-formed state. -/
theorem C9_texture_handle_table_witness :
    ((⟨[(5, 3)], [7]⟩ : EguiUserTextures).add_image 5 = some (3, ⟨[(5, 3)], [7]⟩)) ∧
    ((⟨[(5, 3)], [7]⟩ : EguiUserTextures).remove_image 5).1 = some 3 ∧
    ((⟨[(5, 3)], [7]⟩ : EguiUserTextures).remove_image 5).2.free_list = 3 :: [7] ∧
    TexInv (⟨[(0, 0)], [1]⟩ : EguiUserTextures) ∧
    (texValues (⟨[(0, 0)], [1]⟩ : EguiUserTextures)).Nodup :=
  ⟨C9_texture_handle_table.1 ⟨[(5, 3)], [7]⟩ 5 3 (by decide),
   (C9_texture_handle_table.2.1 ⟨[(5, 3)], [7]⟩ 5 3 (by decide)).1,
   (C9_texture_handle_table.2.1 ⟨[(5, 3)], [7]⟩ 5 3 (by decide)).2,
   C9_texture_handle_table.2.2.1 EguiUserTextures.default ⟨[(0, 0)], [1]⟩
     (.add 0) (by decide) (by decide),
   C9_texture_handle_table.2.2.2.1 ⟨[(0, 0)], [1]⟩ (by decide)⟩

/-! ### Pass scheduler (`run_egui_context_pass_loop_system`, src/lib.rs) -/

/-- One context matched by the `MultiPassEguiQuery` (it has an
`EguiMultipassSchedule` component). `input` is the pending `EguiInput` event
buffer, `output` the `EguiFullOutput` slot; the full output of a pass is
modelled as the input buffer the pass was handed, which lets the theorems
track the drain-once/fill-once data flow. -/
structure MultiPassContext where
  entity : Nat
  run_manually : Bool
  multipass_schedule : Nat
  input : List Nat
  output : Option (List Nat)
deriving Repr, DecidableEq

/-- World state seen by `run_egui_context_pass_loop_system`: the multipass
contexts plus whether an entity with `EguiContext` and `PrimaryEguiContext`
exists (the guard for the fallback). -/
structure PassWorld where
  contexts : List MultiPassContext
  has_primary_context : Bool
deriving Repr, DecidableEq

/-- The interned label of the well-known primary schedule
(`EguiPrimaryContextPass`), as a schedule identifier. -/
def primaryContextPassLabel : Nat := 0

/-- The `input.take()` performed inside the collecting `filter_map`: every
eligible (not run-manually) context's pending buffer is drained. -/
def takeInputs (cs : List MultiPassContext) : List MultiPassContext :=
  cs.map fun c => if c.run_manually then c else { c with input := [] }

/-- The collecting `filter_map`: eligible contexts yield
`(entity, schedule, taken input)`. -/
def collectMultipass (cs : List MultiPassContext) : List (Nat × Nat × List Nat) :=
  (cs.filter fun c => !c.run_manually).map fun c =>
    (c.entity, c.multipass_schedule, c.input)

/-- `contexts_query.get_mut(world, *entity)...output = Some(output)`: store a
pass output into the context with the given entity id. -/
def setOutput (cs : List MultiPassContext) (e : Nat) (out : List Nat) :
    List MultiPassContext :=
  cs.map fun c => if c.entity = e then { c with output := some out } else c

/-- The main loop over collected multipass contexts. `used` is the
`used_schedules` set, `log` the ordered list of schedule identifiers actually
run via `try_run_schedule`. `none` models the
"Each Egui context running in the multi-pass mode must have a unique schedule"
panic (`used_schedules.insert` returning `false`). -/
def runMultipass :
    List (Nat × Nat × List Nat) → List Nat → List MultiPassContext → List Nat →
      Option (List MultiPassContext × List Nat × List Nat)
  | [], used, cs, log => some (cs, log, used)
  | (e, s, inp) :: rest, used, cs, log =>
    if s ∈ used then none
    else runMultipass rest (s :: used) (setOutput cs e inp) (log ++ [s])

/-- `run_egui_context_pass_loop_system`: drain and run every eligible
multipass context, then — only if a primary context exists — run the
`EguiPrimaryContextPass` fallback once unless that schedule was already
consumed. Returns the final contexts and the ordered schedule-run log, or
`none` on the duplicate-schedule panic. -/
def run_egui_context_pass_loop (w : PassWorld) :
    Option (List MultiPassContext × List Nat) :=
  match runMultipass (collectMultipass w.contexts) [] (takeInputs w.contexts) [] with
  | none => none
  | some (cs, log, used) =>
    if !w.has_primary_context then some (cs, log)
    else if primaryContextPassLabel ∈ used then some (cs, log)
    else some (cs, log ++ [primaryContextPassLabel])

/-- Schedule identifiers of the eligible (not run-manually) contexts. -/
def eligibleSchedules (cs : List MultiPassContext) : List Nat :=
  (cs.filter fun c => !c.run_manually).map fun c => c.multipass_schedule

theorem runMultipass_none {l : List (Nat × Nat × List Nat)} :
    ∀ {used : List Nat} (cs : List MultiPassContext) (log : List Nat),
      (¬(l.map fun x => x.2.1).Nodup ∨ ∃ x ∈ l, x.2.1 ∈ used) →
      runMultipass l used cs log = none := by
  induction l with
  | nil =>
    intro used cs log h
    rcases h with h | ⟨x, hx, _⟩
    · exact absurd (by simp) h
    · simp at hx
  | cons hd rest ih =>
    obtain ⟨e, s, inp⟩ := hd
    intro used cs log h
    by_cases hs : s ∈ used
    · simp [runMultipass, hs]
    · simp only [runMultipass, if_neg hs]
      apply ih
      rcases h with h | ⟨x, hx, hxu⟩
      · by_cases h2 : (rest.map fun x => x.2.1).Nodup
        · have hs2 : s ∈ rest.map fun x => x.2.1 := by
            by_contra hs3
            exact h (List.nodup_cons.mpr ⟨hs3, h2⟩)
          obtain ⟨x, hx, hxs⟩ := List.mem_map.mp hs2
          exact Or.inr ⟨x, hx, by rw [hxs]; exact List.mem_cons_self s used⟩
        · exact Or.inl h2
      · rcases List.mem_cons.mp hx with rfl | hx2
        · exact absurd hxu hs
        · exact Or.inr ⟨x, hx2, List.mem_cons_of_mem s hxu⟩

theorem runMultipass_some {l : List (Nat × Nat × List Nat)} :
    ∀ (used : List Nat) (cs : List MultiPassContext) (log : List Nat),
      (l.map fun x => x.2.1).Nodup →
      (∀ x ∈ l, x.2.1 ∉ used) →
      runMultipass l used cs log =
        some (l.foldl (fun a x => setOutput a x.1 x.2.2) cs,
              log ++ l.map (fun x => x.2.1),
              (l.map fun x => x.2.1).reverse ++ used) := by
  induction l with
  | nil => intro used cs log _ _; simp [runMultipass]
  | cons hd rest ih =>
    obtain ⟨e, s, inp⟩ := hd
    intro used cs log hnd hused
    have hs : s ∉ used := hused (e, s, inp) (List.mem_cons_self _ _)
    simp only [runMultipass, if_neg hs]
    rw [ih (s :: used) (setOutput cs e inp) (log ++ [s])
      (List.nodup_cons.mp (by simpa using hnd)).2 ?_]
    · simp only [List.map_cons, List.foldl_cons, List.reverse_cons, List.append_assoc]
      rfl
    · intro x hx hxmem
      rcases List.mem_cons.mp hxmem with hxs | hxu
      · have hsrest : s ∉ rest.map fun x => x.2.1 :=
          (List.nodup_cons.mp (by simpa using hnd)).1
        exact hsrest (hxs ▸ List.mem_map_of_mem (fun x => x.2.1) hx)
      · exact hused x (List.mem_cons_of_mem _ hx) hxu

theorem runMultipass_some_log {l : List (Nat × Nat × List Nat)} :
    ∀ {used log2 used2 : List Nat} {cs cs2 : List MultiPassContext} {log : List Nat},
      runMultipass l used cs log = some (cs2, log2, used2) →
      log2 = log ++ l.map (fun x => x.2.1) ∧
      used2 = (l.map fun x => x.2.1).reverse ++ used := by
  induction l with
  | nil =>
    intro used log2 used2 cs cs2 log h
    simp only [runMultipass, Option.some.injEq, Prod.mk.injEq] at h
    simp [← h.2.1, ← h.2.2]
  | cons hd rest ih =>
    obtain ⟨e, s, inp⟩ := hd
    intro used log2 used2 cs cs2 log h
    by_cases hs : s ∈ used
    · simp [runMultipass, hs] at h
    · simp only [runMultipass, if_neg hs] at h
      obtain ⟨h1, h2⟩ := ih h
      constructor
      · rw [h1]; simp
      · rw [h2]; simp

/-- Per-context composite of all the `setOutput` updates of one loop run. -/
def applyOuts (c : MultiPassContext) (l : List (Nat × Nat × List Nat)) :
    MultiPassContext :=
  l.foldl (fun c x => if c.entity = x.1 then { c with output := some x.2.2 } else c) c

theorem foldl_setOutput_eq_map (l : List (Nat × Nat × List Nat)) :
    ∀ cs : List MultiPassContext,
      l.foldl (fun a x => setOutput a x.1 x.2.2) cs = cs.map fun c => applyOuts c l := by
  induction l with
  | nil => intro cs; simp [applyOuts]
  | cons x rest ih =>
    intro cs
    simp only [List.foldl_cons]
    rw [ih (setOutput cs x.1 x.2.2)]
    simp only [setOutput, List.map_map]
    rfl

theorem applyOuts_of_no_match {c : MultiPassContext} {l : List (Nat × Nat × List Nat)}
    (h : ∀ x ∈ l, x.1 ≠ c.entity) : applyOuts c l = c := by
  induction l with
  | nil => rfl
  | cons x rest ih =>
    have hx : x.1 ≠ c.entity := h x (List.mem_cons_self _ _)
    simp only [applyOuts, List.foldl_cons, if_neg (Ne.symm hx)]
    exact ih fun y hy => h y (List.mem_cons_of_mem _ hy)

theorem applyOuts_stable {c : MultiPassContext} {l : List (Nat × Nat × List Nat)}
    {v : List Nat} (h : ∀ x ∈ l, x.1 = c.entity → x.2.2 = v)
    (hc : c.output = some v) : applyOuts c l = c := by
  induction l generalizing c with
  | nil => rfl
  | cons x rest ih =>
    by_cases hx : c.entity = x.1
    · have hv : x.2.2 = v := h x (List.mem_cons_self _ _) hx.symm
      have hupd : ({ c with output := some x.2.2 } : MultiPassContext) = c := by
        cases c; simp_all
      simp only [applyOuts, List.foldl_cons, if_pos hx, hupd]
      exact ih (fun y hy => h y (List.mem_cons_of_mem _ hy)) hc
    · simp only [applyOuts, List.foldl_cons, if_neg hx]
      exact ih (fun y hy => h y (List.mem_cons_of_mem _ hy)) hc

theorem applyOuts_hit {c : MultiPassContext} {l : List (Nat × Nat × List Nat)}
    {x0 : Nat × Nat × List Nat} (hmem : x0 ∈ l) (he : x0.1 = c.entity)
    (huniq : ∀ x ∈ l, x.1 = c.entity → x = x0) :
    applyOuts c l = { c with output := some x0.2.2 } := by
  induction l generalizing c with
  | nil => simp at hmem
  | cons y rest ih =>
    by_cases hy : c.entity = y.1
    · have hyx0 : y = x0 := huniq y (List.mem_cons_self _ _) hy.symm
      subst hyx0
      simp only [applyOuts, List.foldl_cons, if_pos hy]
      refine applyOuts_stable (v := y.2.2) ?_ rfl
      intro x hx hxe
      have := huniq x (List.mem_cons_of_mem _ hx) hxe
      rw [this]
    · have hx0rest : x0 ∈ rest := by
        rcases List.mem_cons.mp hmem with rfl | h2
        · exact absurd he.symm hy
        · exact h2
      simp only [applyOuts, List.foldl_cons, if_neg hy]
      exact ih hx0rest he fun x hx hxe => huniq x (List.mem_cons_of_mem _ hx) hxe

theorem mem_collectMultipass {cs : List MultiPassContext} {x : Nat × Nat × List Nat} :
    x ∈ collectMultipass cs ↔
      ∃ c, c ∈ cs ∧ c.run_manually = false ∧
        x = (c.entity, c.multipass_schedule, c.input) := by
  simp only [collectMultipass, List.mem_map, List.mem_filter, Bool.not_eq_true']
  constructor
  · rintro ⟨c, ⟨hc, hm⟩, rfl⟩
    exact ⟨c, hc, hm, rfl⟩
  · rintro ⟨c, hc, hm, rfl⟩
    exact ⟨c, ⟨hc, hm⟩, rfl⟩

theorem collectMultipass_map_sched (cs : List MultiPassContext) :
    ((collectMultipass cs).map fun x => x.2.1) = eligibleSchedules cs := by
  simp only [collectMultipass, eligibleSchedules, List.map_map]
  rfl

theorem mem_eligibleSchedules {cs : List MultiPassContext} {c : MultiPassContext}
    (hc : c ∈ cs) (hm : c.run_manually = false) :
    c.multipass_schedule ∈ eligibleSchedules cs := by
  simp only [eligibleSchedules, List.mem_map, List.mem_filter, Bool.not_eq_true']
  exact ⟨c, ⟨hc, hm⟩, rfl⟩

theorem pass_loop_final_contexts {w : PassWorld}
    (hent : (w.contexts.map MultiPassContext.entity).Nodup)
    (hsch : (eligibleSchedules w.contexts).Nodup) :
    ∃ log,
      run_egui_context_pass_loop w =
        some ((w.contexts.map fun c =>
          if c.run_manually then c
          else { c with input := [], output := some c.input }), log) ∧
      ∀ c ∈ w.contexts, c.run_manually = false →
        log.count c.multipass_schedule = 1 := by
  have hndl : ((collectMultipass w.contexts).map fun x => x.2.1).Nodup := by
    rw [collectMultipass_map_sched]; exact hsch
  have hrun := runMultipass_some (l := collectMultipass w.contexts)
    [] (takeInputs w.contexts) [] hndl (by simp)
  have hcs : (collectMultipass w.contexts).foldl
      (fun a x => setOutput a x.1 x.2.2) (takeInputs w.contexts)
      = w.contexts.map fun c =>
          if c.run_manually then c
          else { c with input := [], output := some c.input } := by
    rw [foldl_setOutput_eq_map]
    unfold takeInputs
    rw [List.map_map]
    refine List.map_congr_left ?_
    intro c hc
    by_cases hm : c.run_manually = true
    · simp only [Function.comp_apply, if_pos hm]
      refine applyOuts_of_no_match ?_
      intro x hx
      obtain ⟨d, hd, hdm, rfl⟩ := mem_collectMultipass.mp hx
      intro hde
      have hdc : d = c := List.inj_on_of_nodup_map hent hd hc hde
      rw [hdc] at hdm
      rw [hdm] at hm
      exact Bool.false_ne_true hm
    · have hm2 : c.run_manually = false := Bool.not_eq_true _ ▸ Bool.eq_false_iff.mpr hm
      simp only [Function.comp_apply, if_neg hm]
      have hx0 : (c.entity, c.multipass_schedule, c.input) ∈ collectMultipass w.contexts :=
        mem_collectMultipass.mpr ⟨c, hc, hm2, rfl⟩
      have := applyOuts_hit (c := { c with input := [] }) hx0 rfl ?_
      · rw [this]
      · intro x hx hxe
        obtain ⟨d, hd, hdm, rfl⟩ := mem_collectMultipass.mp hx
        have hdc : d = c := List.inj_on_of_nodup_map hent hd hc hxe
        rw [hdc]
  rw [hcs, collectMultipass_map_sched] at hrun
  unfold run_egui_context_pass_loop
  rw [hrun]
  simp only [List.nil_append, List.append_nil]
  by_cases hp : w.has_primary_context = true
  · by_cases hin : primaryContextPassLabel ∈ (eligibleSchedules w.contexts).reverse
    · refine ⟨eligibleSchedules w.contexts, ?_, ?_⟩
      · simp [hp, hin]
      · intro c hc hm
        exact List.count_eq_one_of_mem hsch (mem_eligibleSchedules hc hm)
    · refine ⟨eligibleSchedules w.contexts ++ [primaryContextPassLabel], ?_, ?_⟩
      · simp [hp, hin]
      · intro c hc hm
        have hmem := mem_eligibleSchedules hc hm
        have hne : c.multipass_schedule ≠ primaryContextPassLabel := by
          intro he
          exact hin (List.mem_reverse.mpr (he ▸ hmem))
        rw [List.count_append, List.count_eq_one_of_mem hsch hmem,
          List.count_eq_zero_of_not_mem (by simp [hne])]
  · refine ⟨eligibleSchedules w.contexts, ?_, ?_⟩
    · simp [hp]
    · intro c hc hm
      exact List.count_eq_one_of_mem hsch (mem_eligibleSchedules hc hm)

/-- Claim C1: pass scheduler uniqueness. If two eligible contexts (multipass,
not run-manually) are bound to the same schedule identifier, the scheduler
panics (`none`); if all eligible schedule identifiers are pairwise distinct
(and entity ids are distinct, as the ECS guarantees), the loop succeeds and
each eligible context's pass runs exactly once: its schedule appears once in
the run log, its input buffer ends up drained (`[]`) and its output slot is
filled once with the output of the pass over exactly that drained input;
run-manually contexts are untouched. -/
theorem C1_pass_scheduler_uniqueness :
    (∀ w : PassWorld,
      ¬(eligibleSchedules w.contexts).Nodup →
      run_egui_context_pass_loop w = none) ∧
    (∀ w : PassWorld,
      (w.contexts.map MultiPassContext.entity).Nodup →
      (eligibleSchedules w.contexts).Nodup →
      ∃ log,
        run_egui_context_pass_loop w =
          some ((w.contexts.map fun c =>
            if c.run_manually then c
            else { c with input := [], output := some c.input }), log) ∧
        ∀ c ∈ w.contexts, c.run_manually = false →
          log.count c.multipass_schedule = 1) := by
  constructor
  · intro w h
    unfold run_egui_context_pass_loop
    rw [runMultipass_none (takeInputs w.contexts) []
      (Or.inl (by rwa [collectMultipass_map_sched]))]
  · intro w hent hsch
    exact pass_loop_final_contexts hent hsch

/-- Witness for C1: two eligible contexts sharing schedule 5 panic; two
eligible contexts with distinct schedules 1 and 2 both run exactly once, with
inputs drained and outputs filled. -/
theorem C1_pass_scheduler_uniqueness_witness :
    run_egui_context_pass_loop
        ⟨[⟨0, false, 5, [], none⟩, ⟨1, false, 5, [], none⟩], true⟩ = none ∧
    ∃ log,
      run_egui_context_pass_loop
          ⟨[⟨0, false, 1, [10], none⟩, ⟨1, false, 2, [20], none⟩], true⟩ =
        some ([⟨0, false, 1, [], some [10]⟩, ⟨1, false, 2, [], some [20]⟩], log) ∧
      ∀ c ∈ ([⟨0, false, 1, [10], none⟩,
              ⟨1, false, 2, [20], none⟩] : List MultiPassContext),
        c.run_manually = false → log.count c.multipass_schedule = 1 := by
  constructor
  · exact C1_pass_scheduler_uniqueness.1 _ (by decide)
  · obtain ⟨log, h1, h2⟩ := C1_pass_scheduler_uniqueness.2
      ⟨[⟨0, false, 1, [10], none⟩, ⟨1, false, 2, [20], none⟩], true⟩
      (by decide) (by decide)
    exact ⟨log, by simpa using h1, h2⟩

/-- Claim C4: scheduler fallback. Whenever the loop succeeds, a primary
context is present and no eligible context consumed the primary schedule, that
schedule is run exactly once (as the fallback) — never zero or two times; and
when no context exists at all (no multipass context and no primary context),
the loop succeeds silently with an empty run log. -/
theorem C4_scheduler_fallback :
    (∀ (w : PassWorld) (cs2 : List MultiPassContext) (log : List Nat),
      run_egui_context_pass_loop w = some (cs2, log) →
      w.has_primary_context = true →
      (∀ c ∈ w.contexts, c.run_manually = false →
        c.multipass_schedule ≠ primaryContextPassLabel) →
      log.count primaryContextPassLabel = 1) ∧
    (∀ w : PassWorld, w.contexts = [] → w.has_primary_context = false →
      run_egui_context_pass_loop w = some ([], [])) := by
  constructor
  · intro w cs2 log h hp hnp
    unfold run_egui_context_pass_loop at h
    cases hr : runMultipass (collectMultipass w.contexts) []
        (takeInputs w.contexts) [] with
    | none => rw [hr] at h; simp at h
    | some res =>
      obtain ⟨cs, log0, used⟩ := res
      rw [hr] at h
      obtain ⟨hlog0, hused⟩ := runMultipass_some_log hr
      have hnpm : primaryContextPassLabel ∉
          (collectMultipass w.contexts).map fun x => x.2.1 := by
        rw [collectMultipass_map_sched]
        intro hmem
        simp only [eligibleSchedules, List.mem_map, List.mem_filter,
          Bool.not_eq_true'] at hmem
        obtain ⟨c, ⟨hc, hm⟩, hcp⟩ := hmem
        exact hnp c hc hm hcp
      have hnotin : primaryContextPassLabel ∉ used := by
        rw [hused]
        simp only [List.append_nil, List.mem_reverse]
        exact hnpm
      have h2 : (if (!w.has_primary_context) = true then some (cs, log0)
          else if primaryContextPassLabel ∈ used then some (cs, log0)
          else some (cs, log0 ++ [primaryContextPassLabel])) = some (cs2, log) := h
      rw [if_neg (by simp [hp]), if_neg hnotin] at h2
      simp only [Option.some.injEq, Prod.mk.injEq] at h2
      rw [← h2.2, hlog0]
      simp only [List.nil_append]
      rw [List.count_append]
      rw [List.count_eq_zero_of_not_mem hnpm]
      simp
  · intro w h1 h2
    obtain ⟨cs, hp⟩ := w
    simp only at h1 h2
    subst h1; subst h2
    rfl

/-- Witness for C4: a single eligible context on schedule 3 with a primary
context present runs the fallback primary schedule exactly once; the empty
world skips the fallback silently. -/
theorem C4_scheduler_fallback_witness :
    (List.count primaryContextPassLabel
      ([3, 0] : List Nat) = 1) ∧
    run_egui_context_pass_loop ⟨[], false⟩ = some ([], []) := by
  constructor
  · exact C4_scheduler_fallback.1 ⟨[⟨0, false, 3, [7], none⟩], true⟩
      [⟨0, false, 3, [], some [7]⟩] [3, 0] (by decide) rfl (by decide)
  · exact C4_scheduler_fallback.2 ⟨[], false⟩ rfl rfl

/-! ### Fan-out iterator (`EguiContextsEventIterator`, src/input.rs) -/

/-- `Option::zip`. -/
def optZip {α β : Type} : Option α → Option β → Option (α × β)
  | some a, some b => some (a, b)
  | _, _ => none

/-- `Vec::pop`: removes and returns the last element. -/
def popBack (xs : List Nat) : Option Nat × List Nat :=
  match xs.reverse with
  | [] => (none, [])
  | y :: ys => (some y, ys.reverse)

/-- State of an `EguiContextsEventIterator`: the unread remainder of the event
queue, the fetched `current_event`, the context vector being popped for the
current event, and the redirection slot captured at construction
(`non_window_context`). -/
structure FanOutState (E : Type) where
  events : List E
  current_event : Option E
  current_event_contexts : List Nat
  non_window_context : Option Nat

/-- The final `self.current_event.zip(self.current_event_contexts.pop())` of
`next`, which also mutates the context vector. -/
def finishZip {E : Type} (s : FanOutState E) : Option (E × Nat) × FanOutState E :=
  let p := popBack s.current_event_contexts
  (optZip s.current_event p.1, { s with current_event_contexts := p.2 })

/-- `EguiContextsEventIterator::next`. `wmap` is
`WindowToEguiContextMap::window_to_contexts` (`none` = window not in the map;
the `HashSet` iteration order is fixed by the returned list), `winOf` the
window-id projection closure. Returns the yielded item and successor state;
a `none` item ends a `for` loop over the iterator. -/
def iterNext {E : Type} (wmap : Nat → Option (List Nat)) (winOf : E → Nat)
    (s0 : FanOutState E) : Option (E × Nat) × FanOutState E :=
  let s1 := if s0.current_event_contexts.isEmpty
    then { s0 with current_event := none } else s0
  match s1.current_event with
  | some _ => finishZip s1
  | none =>
    let s2 :=
      match s1.events with
      | [] => { s1 with current_event := (none : Option E) }
      | e :: es => { s1 with events := es, current_event := some e }
    if s2.non_window_context.isSome then
      (optZip s2.current_event s2.non_window_context, s2)
    else
      let s3 :=
        match s2.current_event with
        | none => s2
        | some e =>
          match wmap (winOf e) with
          | none => s2
          | some cs => { s2 with current_event_contexts := cs }
      finishZip s3

/-- Drive the iterator the way a Rust `for` loop does: call `next` repeatedly
and stop at the first `none`. `fuel` bounds the number of calls; the theorems
supply sufficient fuel. -/
def drainIter {E : Type} (wmap : Nat → Option (List Nat)) (winOf : E → Nat) :
    Nat → FanOutState E → List (E × Nat)
  | 0, _ => []
  | fuel + 1, s =>
    match iterNext wmap winOf s with
    | (none, _) => []
    | (some p, s2) => p :: drainIter wmap winOf fuel s2

/-- Iterator state as constructed by the `EguiContextEventReader::read*`
methods: full queue, no current event, empty context vector, and the
redirection slot of the chosen mode. -/
def initFanOut {E : Type} (events : List E) (nwc : Option Nat) : FanOutState E :=
  { events := events, current_event := none, current_event_contexts := [],
    non_window_context := nwc }

/-- Context list registered for an event's window (`[]` when the window is
absent from the map). -/
def ctxList {E : Type} (wmap : Nat → Option (List Nat)) (winOf : E → Nat) (e : E) :
    List Nat :=
  (wmap (winOf e)).getD []

/-- Total number of (event, context) registrations over a queue. -/
def sumCtx {E : Type} (wmap : Nat → Option (List Nat)) (winOf : E → Nat)
    (evs : List E) : Nat :=
  evs.foldr (fun e acc => (ctxList wmap winOf e).length + acc) 0

/-- Fuel sufficient to drive the iterator over the whole queue in either mode. -/
def fanOutFuel {E : Type} (wmap : Nat → Option (List Nat)) (winOf : E → Nat)
    (evs : List E) : Nat :=
  sumCtx wmap winOf evs + evs.length + 1

/-- The full pair sequence a `for` loop over `read`/`read_with_non_window_*`
observes. -/
def readFanOut {E : Type} (wmap : Nat → Option (List Nat)) (winOf : E → Nat)
    (nwc : Option Nat) (events : List E) : List (E × Nat) :=
  drainIter wmap winOf (fanOutFuel wmap winOf events) (initFanOut events nwc)

theorem iterNext_redirect {E : Type} (wmap : Nat → Option (List Nat))
    (winOf : E → Nat) (T : Nat) (e : E) (es : List E) (ce : Option E) :
    iterNext wmap winOf ⟨e :: es, ce, [], some T⟩ =
      (some (e, T), ⟨es, some e, [], some T⟩) := by
  simp [iterNext, optZip]

theorem iterNext_redirect_end {E : Type} (wmap : Nat → Option (List Nat))
    (winOf : E → Nat) (T : Nat) (ce : Option E) :
    iterNext wmap winOf ⟨[], ce, [], some T⟩ =
      (none, ⟨[], none, [], some T⟩) := by
  simp [iterNext, optZip]

theorem iterNext_pop {E : Type} (wmap : Nat → Option (List Nat)) (winOf : E → Nat)
    (es : List E) (e : E) (l : List Nat) (a : Nat) (nwc : Option Nat) :
    iterNext wmap winOf ⟨es, some e, l ++ [a], nwc⟩ =
      (some (e, a), ⟨es, some e, l, nwc⟩) := by
  simp [iterNext, finishZip, popBack, optZip]

theorem iterNext_fetch_pop {E : Type} (wmap : Nat → Option (List Nat))
    (winOf : E → Nat) (e : E) (es : List E) (ce : Option E)
    {l : List Nat} {a : Nat} (hw : ctxList wmap winOf e = l ++ [a]) :
    iterNext wmap winOf ⟨e :: es, ce, [], none⟩ =
      (some (e, a), ⟨es, some e, l, none⟩) := by
  unfold ctxList at hw
  cases hmap : wmap (winOf e) with
  | none => rw [hmap] at hw; simp at hw
  | some cs =>
    rw [hmap] at hw
    simp only [Option.getD_some] at hw
    subst hw
    simp [iterNext, hmap, finishZip, popBack, optZip]

theorem iterNext_end_no_redirect {E : Type} (wmap : Nat → Option (List Nat))
    (winOf : E → Nat) (ce : Option E) :
    iterNext wmap winOf ⟨[], ce, [], none⟩ = (none, ⟨[], none, [], none⟩) := by
  simp [iterNext, finishZip, popBack, optZip]

theorem iterNext_of_empty_contexts {E : Type} (wmap : Nat → Option (List Nat))
    (winOf : E → Nat) (es : List E) (ce : Option E) (nwc : Option Nat) :
    iterNext wmap winOf ⟨es, ce, [], nwc⟩ = iterNext wmap winOf ⟨es, none, [], nwc⟩ := by
  simp [iterNext]

theorem drainIter_succ_some {E : Type} (wmap : Nat → Option (List Nat))
    (winOf : E → Nat) (fuel : Nat) {s s2 : FanOutState E} {p : E × Nat}
    (h : iterNext wmap winOf s = (some p, s2)) :
    drainIter wmap winOf (fuel + 1) s = p :: drainIter wmap winOf fuel s2 := by
  simp only [drainIter, h]

theorem drainIter_congr {E : Type} (wmap : Nat → Option (List Nat))
    (winOf : E → Nat) (fuel : Nat) {s s2 : FanOutState E}
    (h : iterNext wmap winOf s = iterNext wmap winOf s2) :
    drainIter wmap winOf fuel s = drainIter wmap winOf fuel s2 := by
  cases fuel with
  | zero => rfl
  | succ f => simp only [drainIter, h]

theorem drain_redirect {E : Type} (wmap : Nat → Option (List Nat))
    (winOf : E → Nat) (T : Nat) :
    ∀ (evs : List E) (fuel : Nat) (ce : Option E), evs.length < fuel →
      drainIter wmap winOf fuel ⟨evs, ce, [], some T⟩ = evs.map fun e => (e, T) := by
  intro evs
  induction evs with
  | nil =>
    intro fuel ce hf
    cases fuel with
    | zero => omega
    | succ f => simp [drainIter, iterNext_redirect_end]
  | cons e es ih =>
    intro fuel ce hf
    cases fuel with
    | zero => omega
    | succ f =>
      simp only [drainIter, iterNext_redirect]
      rw [ih f (some e) (by simpa using Nat.lt_of_succ_lt_succ hf)]
      simp

theorem drain_inner {E : Type} (wmap : Nat → Option (List Nat)) (winOf : E → Nat)
    (es : List E) (e : E) :
    ∀ (cs : List Nat) (fuel : Nat),
      drainIter wmap winOf (fuel + cs.length) ⟨es, some e, cs, none⟩ =
        (cs.reverse.map fun c => (e, c)) ++
          drainIter wmap winOf fuel ⟨es, some e, [], none⟩ := by
  intro cs
  induction cs using List.reverseRecOn with
  | nil => intro fuel; simp
  | append_singleton l a ih =>
    intro fuel
    have hlen : (l ++ [a]).length = l.length + 1 := by simp
    rw [hlen]
    have hfl : fuel + (l.length + 1) = (fuel + l.length) + 1 := by omega
    rw [hfl]
    simp only [drainIter, iterNext_pop]
    rw [ih fuel]
    simp

theorem drain_no_redirect {E : Type} (wmap : Nat → Option (List Nat))
    (winOf : E → Nat) :
    ∀ (evs : List E) (fuel : Nat) (ce : Option E),
      (∀ e ∈ evs, ctxList wmap winOf e ≠ []) →
      sumCtx wmap winOf evs < fuel →
      drainIter wmap winOf fuel ⟨evs, ce, [], none⟩ =
        evs.flatMap fun e => (ctxList wmap winOf e).reverse.map fun c => (e, c) := by
  intro evs
  induction evs with
  | nil =>
    intro fuel ce _ hf
    cases fuel with
    | zero => omega
    | succ f => simp [drainIter, iterNext_end_no_redirect]
  | cons e es ih =>
    intro fuel ce hne hf
    have hcs : ctxList wmap winOf e ≠ [] := hne e (List.mem_cons_self _ _)
    obtain ⟨l, a, hla⟩ : ∃ L b, ctxList wmap winOf e = L ++ [b] := by
      rcases List.eq_nil_or_concat (ctxList wmap winOf e) with h | ⟨L, b, h⟩
      · exact absurd h hcs
      · exact ⟨L, b, by simpa [List.concat_eq_append] using h⟩
    have hsum : sumCtx wmap winOf (e :: es) =
        (l.length + 1) + sumCtx wmap winOf es := by
      simp [sumCtx, hla]
    cases fuel with
    | zero => omega
    | succ f =>
      have hf2 : l.length + (sumCtx wmap winOf es + 1) ≤ f := by
        rw [hsum] at hf; omega
      obtain ⟨k, hk⟩ := Nat.exists_eq_add_of_le hf2
      rw [drainIter_succ_some wmap winOf f (iterNext_fetch_pop wmap winOf e es ce hla)]
      have hfl : f = (sumCtx wmap winOf es + 1 + k) + l.length := by omega
      rw [hfl, drain_inner]
      rw [drainIter_congr wmap winOf _ (iterNext_of_empty_contexts wmap winOf es (some e) none)]
      rw [ih (sumCtx wmap winOf es + 1 + k) none
        (fun x hx => hne x (List.mem_cons_of_mem _ hx)) (by omega)]
      simp [hla, List.flatMap_cons]

/-- Claim C2 (amended): fan-out routing. If the redirection slot holds a
context `T`, the iterator yields exactly one pair `(event, T)` per event, in
queue order, regardless of window registration. With no redirection active —
provided every event's window has at least one registered context — each
event is paired with every context registered to its window exactly once (in
the set's iteration order, here its reverse), so a single event on a window
with `N` distinct registered contexts yields exactly `N` pairs, each context
exactly once. (The proviso is forced: an event whose window has no registered
contexts makes `next` return `None`, ending the `for` loop, see the
counterexample.) -/
theorem C2_fan_out_routing :
    (∀ (E : Type) (wmap : Nat → Option (List Nat)) (winOf : E → Nat)
        (T : Nat) (evs : List E),
      readFanOut wmap winOf (some T) evs = evs.map fun e => (e, T)) ∧
    (∀ (E : Type) (wmap : Nat → Option (List Nat)) (winOf : E → Nat)
        (evs : List E),
      (∀ e ∈ evs, ctxList wmap winOf e ≠ []) →
      readFanOut wmap winOf none evs =
        evs.flatMap fun e =>
          (ctxList wmap winOf e).reverse.map fun c => (e, c)) ∧
    (∀ (E : Type) (wmap : Nat → Option (List Nat))
        (winOf : E → Nat) (e : E) (c : Nat),
      (ctxList wmap winOf e).Nodup → ctxList wmap winOf e ≠ [] →
      ((readFanOut wmap winOf none [e]).map Prod.snd).count c =
          (if c ∈ ctxList wmap winOf e then 1 else 0) ∧
        (readFanOut wmap winOf none [e]).length = (ctxList wmap winOf e).length ∧
        ∀ p ∈ readFanOut wmap winOf none [e], p.1 = e) := by
  refine ⟨?_, ?_, ?_⟩
  · intro E wmap winOf T evs
    exact drain_redirect wmap winOf T evs _ none (by simp [fanOutFuel]; omega)
  · intro E wmap winOf evs hne
    exact drain_no_redirect wmap winOf evs _ none hne (by simp [fanOutFuel]; omega)
  · intro E wmap winOf e c hnd hne
    have hsingle : readFanOut wmap winOf none [e] =
        (ctxList wmap winOf e).reverse.map fun x => (e, x) := by
      have := drain_no_redirect wmap winOf [e]
        (fanOutFuel wmap winOf [e]) none (by simpa using hne)
        (by simp [fanOutFuel]; omega)
      simpa [readFanOut, initFanOut] using this
    refine ⟨?_, ?_, ?_⟩
    · rw [hsingle, List.map_map]
      have hmm : ((ctxList wmap winOf e).reverse.map (Prod.snd ∘ fun x => (e, x)))
          = (ctxList wmap winOf e).reverse := by
        simp
      rw [hmm]
      by_cases hmem : c ∈ ctxList wmap winOf e
      · rw [if_pos hmem]
        exact List.count_eq_one_of_mem (List.nodup_reverse.mpr hnd)
          (List.mem_reverse.mpr hmem)
      · rw [if_neg hmem]
        exact List.count_eq_zero_of_not_mem fun hc => hmem (List.mem_reverse.mp hc)
    · rw [hsingle]; simp
    · intro p hp
      rw [hsingle] at hp
      obtain ⟨x, _, rfl⟩ := List.mem_map.mp hp
      rfl

/-- Window map of the C2 counterexample: window 1 has the single registered
context 5; window 0 is absent from the map (zero registered contexts). -/
def wmapC2 : Nat → Option (List Nat)
  | 1 => some [5]
  | _ => none

/-- Counterexample to C2 as frozen: with no redirection, the queue
`[event on window 0, event on window 1]` yields no pairs at all — in
particular the second event is not paired with its registered context 5
exactly once, because the zero-context first event makes `next` return `None`
and the `for` loop stops. -/
theorem C2_fan_out_routing_counterexample :
    readFanOut wmapC2 (fun e => e) none [0, 1] = [] ∧
    wmapC2 1 = some [5] ∧
    (1, 5) ∉ readFanOut wmapC2 (fun e => e) none [0, 1] := by
  refine ⟨by decide, rfl, by decide⟩

/-- Witness for C2 at concrete inputs: hover redirection to context 42 over
two events, two-context fan-out on one window, and the exact-once count on a
single event. -/
theorem C2_fan_out_routing_witness :
    readFanOut (fun _ => some [5, 6]) (fun e => e) (some 42) [0, 1] =
      [(0, 42), (1, 42)] ∧
    readFanOut (fun _ => some [5, 6]) (fun e => e) none [0] =
      [(0, 6), (0, 5)] ∧
    ((readFanOut (fun _ => some [5, 6]) (fun e => e) none [0]).map Prod.snd).count 5
      = 1 := by
  refine ⟨C2_fan_out_routing.1 Nat (fun _ => some [5, 6]) (fun e => e) 42 [0, 1], ?_, ?_⟩
  · have := C2_fan_out_routing.2.1 Nat (fun _ => some [5, 6]) (fun e => e) [0]
      (by intro e _; simp [ctxList])
    simpa [ctxList] using this
  · have := (C2_fan_out_routing.2.2 Nat (fun _ => some [5, 6])
      (fun e => e) 0 5 (by simp [ctxList]) (by simp [ctxList])).1
    simpa [ctxList] using this

/-- Window map of the C3 failing input: window 3 has the single registered
context 9; window 2 is absent from the map. -/
def wmapC3 : Nat → Option (List Nat)
  | 3 => some [9]
  | _ => none

/-- Evaluation of the code at the C3 failing input: on the queue
`[event on window 2, event on window 3]` with no redirection, the first call
to `next` does consume the zero-context event from the queue (the remaining
queue is `[3]`) but returns `None`, so iteration ends: the full `for` loop
observes no pairs, although window 3 has the registered context 9. The claim
says the subsequent event would still yield its pair. -/
theorem C3_zero_context_consumption_eval :
    (iterNext wmapC3 (fun e => e) (initFanOut [2, 3] none)).1 = none ∧
    (iterNext wmapC3 (fun e => e) (initFanOut [2, 3] none)).2.events = [3] ∧
    readFanOut wmapC3 (fun e => e) none [2, 3] = [] ∧
    wmapC3 3 = some [9] := by
  refine ⟨by decide, by decide, by decide, rfl⟩

/-! ### Modifier tracking and text-input gating (src/input.rs) -/

/-- `ModifierKeysState` (src/input.rs). `win` is the Super/Meta key. -/
structure ModifierKeysState where
  shift : Bool
  ctrl : Bool
  alt : Bool
  win : Bool
  is_macos : Bool
deriving Repr, DecidableEq

/-- `egui::Modifiers`. -/
structure Modifiers where
  alt : Bool
  ctrl : Bool
  shift : Bool
  mac_cmd : Bool
  command : Bool
deriving Repr, DecidableEq

/-- `ModifierKeysState::to_egui_modifiers`. -/
def ModifierKeysState.to_egui_modifiers (s : ModifierKeysState) : Modifiers :=
  { alt := s.alt
    ctrl := s.ctrl
    shift := s.shift
    mac_cmd := if s.is_macos then s.win else false
    command := if s.is_macos then s.win else s.ctrl }

/-- `ModifierKeysState::text_input_is_allowed`:
`!self.win && !self.ctrl || !self.is_macos && self.ctrl && self.alt`
(Rust `&&` binds tighter than `||`). -/
def ModifierKeysState.text_input_is_allowed (s : ModifierKeysState) : Bool :=
  (!s.win && !s.ctrl) || (!s.is_macos && s.ctrl && s.alt)

/-- `char::is_control`: C0 controls, DEL and C1 controls. -/
def isControlChar (c : Char) : Bool :=
  c.toNat < 0x20 || (0x7F ≤ c.toNat && c.toNat ≤ 0x9F)

/-- The logical-key cases relevant to text emission in
`write_keyboard_input_events_system`: `Key::Character`, `Key::Space`, and
everything else (named keys, which never emit `egui::Event::Text`). -/
inductive LogicalKey where
  | character (str : String)
  | space
  | named
deriving Repr, DecidableEq

/-- The `egui::Event::Text` emissions of one keyboard event in
`write_keyboard_input_events_system` (src/input.rs:561-577): only when
`text_input_is_allowed` and the key is pressed; a `Key::Character` whose
string contains no control character emits its text, `Key::Space` emits
`" "`. -/
def keyboardTextEvents (m : ModifierKeysState) (pressed : Bool) (k : LogicalKey) :
    List String :=
  if m.text_input_is_allowed && pressed then
    match k with
    | .character str =>
      if str.toList.all (fun c => !isControlChar c) then [str] else []
    | .space => [" "]
    | .named => []
  else []

/-- Claim C6 (amended): text-input gating. A pressed printable character key
produces a text event if and only if either neither meta nor ctrl is held, or
the platform is not macOS and ctrl and alt are both held (AltGr). Hence
Ctrl+Alt passes through as text only off macOS, and even a held meta key does
not suppress text when non-macOS Ctrl+Alt is also held. -/
theorem C6_text_input_gating :
    ∀ (m : ModifierKeysState) (str : String),
      str.toList.all (fun c => !isControlChar c) = true →
      (keyboardTextEvents m true (.character str) = [str] ↔
        ((m.win = false ∧ m.ctrl = false) ∨
          (m.is_macos = false ∧ m.ctrl = true ∧ m.alt = true))) ∧
      (keyboardTextEvents m true (.character str) = [] ↔
        ¬((m.win = false ∧ m.ctrl = false) ∨
          (m.is_macos = false ∧ m.ctrl = true ∧ m.alt = true))) := by
  intro m str hp
  have hp2 : ∀ x ∈ str.data, isControlChar x = false := by simpa using hp
  obtain ⟨sh, ct, al, wi, mac⟩ := m
  constructor
  · cases sh <;> cases ct <;> cases al <;> cases wi <;> cases mac <;>
      simp [keyboardTextEvents, ModifierKeysState.text_input_is_allowed, hp2] <;>
      exact hp2
  · cases sh <;> cases ct <;> cases al <;> cases wi <;> cases mac <;>
      simp [keyboardTextEvents, ModifierKeysState.text_input_is_allowed, hp2] <;>
      exact hp2

/-- Witness for C6: with no modifiers held, a pressed "a" emits the text
event; with ctrl alone held, it does not. -/
theorem C6_text_input_gating_witness :
    keyboardTextEvents ⟨false, false, false, false, false⟩ true (.character "a")
      = ["a"] ∧
    keyboardTextEvents ⟨false, true, false, false, false⟩ true (.character "a")
      = [] := by
  constructor
  · exact ((C6_text_input_gating ⟨false, false, false, false, false⟩ "a"
      (by decide)).1).mpr (Or.inl ⟨rfl, rfl⟩)
  · exact ((C6_text_input_gating ⟨false, true, false, false, false⟩ "a"
      (by decide)).2).mpr (by simp)

/-- Counterexample to C6 as frozen. The claim says text is suppressed exactly
when meta is held, or when ctrl is held without alt, and that Ctrl+Alt always
passes through. The code instead: (1) with meta AND ctrl AND alt held on
non-macOS, text is emitted although meta is held; (2) on macOS, Ctrl+Alt does
not pass through as text. -/
theorem C6_text_input_gating_counterexample :
    keyboardTextEvents ⟨false, true, true, true, false⟩ true (.character "a")
      = ["a"] ∧
    (⟨false, true, true, true, false⟩ : ModifierKeysState).win = true ∧
    keyboardTextEvents ⟨false, true, true, false, true⟩ true (.character "a")
      = [] ∧
    (⟨false, true, true, false, true⟩ : ModifierKeysState).ctrl = true ∧
    (⟨false, true, true, false, true⟩ : ModifierKeysState).alt = true ∧
    (⟨false, true, true, false, true⟩ : ModifierKeysState).win = false := by
  refine ⟨by decide, rfl, by decide, rfl, rfl, rfl⟩

/-! ### Touch → pointer emulation (`write_touch_event`, src/input.rs) -/

/-- `egui::TouchPhase` / `bevy_input::touch::TouchPhase`. -/
inductive TouchPhase where
  | start
  | move
  | finish
  | cancel
deriving Repr, DecidableEq

/-- `egui::PointerButton` (the cases produced by this crate). -/
inductive PointerButton where
  | primary
  | secondary
  | middle
  | extra1
  | extra2
deriving Repr, DecidableEq

/-- `bevy_input::touch::TouchInput`, restricted to the fields
`write_touch_event` reads. Positions are opaque naturals (the scale-factor
division producing them is `f32` arithmetic in the caller); `force` is
omitted — its normalization is floating-point and outside every claim. -/
structure TouchEvent where
  window : Nat
  id : Nat
  phase : TouchPhase
  position : Nat
deriving Repr, DecidableEq

/-- The `egui::Event` constructors written by the systems modelled here. -/
inductive EguiEvent where
  | pointerMoved (pos : Nat)
  | pointerButton (pos : Nat) (button : PointerButton) (pressed : Bool)
      (modifiers : Modifiers)
  | pointerGone
  | touch (deviceId : Nat) (id : Nat) (phase : TouchPhase) (pos : Nat)
  | text (str : String)
deriving Repr, DecidableEq

/-- `write_touch_event` (src/input.rs:931-1031): always emit the raw
`egui::Event::Touch`; then, if no touch is being translated or this very
touch is, emulate the mouse: on start adopt the id and emit
pointer-move + primary button-down; on move emit pointer-move; on end emit
primary button-up + `PointerGone` and clear the id; on cancel emit
`PointerGone` and clear the id. Returns the emitted events (in order) and the
updated `pointer_touch_id`. -/
def writeTouchEvent (event : TouchEvent) (pointer_position : Nat)
    (modifiers : Modifiers) (pointer_touch_id : Option Nat) :
    List EguiEvent × Option Nat :=
  let raw : List EguiEvent :=
    [.touch event.window event.id event.phase pointer_position]
  let emulating : Bool :=
    match pointer_touch_id with
    | none => true
    | some t => t == event.id
  if emulating then
    match event.phase with
    | .start =>
      (raw ++ [.pointerMoved pointer_position,
               .pointerButton pointer_position .primary true modifiers],
       some event.id)
    | .move => (raw ++ [.pointerMoved pointer_position], pointer_touch_id)
    | .finish =>
      (raw ++ [.pointerButton pointer_position .primary false modifiers,
               .pointerGone],
       none)
    | .cancel => (raw ++ [.pointerGone], none)
  else (raw, pointer_touch_id)

/-- Emulated pointer events (everything except the raw touch pass-through). -/
def isPointerEmulationEvent : EguiEvent → Bool
  | .pointerMoved _ => true
  | .pointerButton _ _ _ _ => true
  | .pointerGone => true
  | _ => false

/-- Claim C7: touch-to-pointer emulation sequences. From a context with no
active touch id, touch-start(P) then touch-end(P) with the same id emits the
emulated pointer events pointer-move(P), primary button-down, primary
button-up, pointer-left, in that order, and clears the active id;
touch-start(P) then touch-cancel with the same id emits pointer-move(P),
primary button-down, pointer-left — no button-up — and clears the active
id. -/
theorem C7_touch_emulation_sequences :
    ∀ (w i p : Nat) (m : Modifiers),
      (((writeTouchEvent ⟨w, i, .start, p⟩ p m none).1 ++
          (writeTouchEvent ⟨w, i, .finish, p⟩ p m
            (writeTouchEvent ⟨w, i, .start, p⟩ p m none).2).1).filter
          isPointerEmulationEvent =
        [.pointerMoved p, .pointerButton p .primary true m,
         .pointerButton p .primary false m, .pointerGone] ∧
        (writeTouchEvent ⟨w, i, .finish, p⟩ p m
          (writeTouchEvent ⟨w, i, .start, p⟩ p m none).2).2 = none) ∧
      (((writeTouchEvent ⟨w, i, .start, p⟩ p m none).1 ++
          (writeTouchEvent ⟨w, i, .cancel, p⟩ p m
            (writeTouchEvent ⟨w, i, .start, p⟩ p m none).2).1).filter
          isPointerEmulationEvent =
        [.pointerMoved p, .pointerButton p .primary true m, .pointerGone] ∧
        (writeTouchEvent ⟨w, i, .cancel, p⟩ p m
          (writeTouchEvent ⟨w, i, .start, p⟩ p m none).2).2 = none) := by
  intro w i p m
  constructor
  · constructor
    · simp [writeTouchEvent, isPointerEmulationEvent, List.filter]
    · simp [writeTouchEvent]
  · constructor
    · simp [writeTouchEvent, isPointerEmulationEvent, List.filter]
    · simp [writeTouchEvent]

/-- Claim C8 (amended): non-active touch pass-through. (1) A touch event
whose id differs from the adopted active touch id emits only the raw touch
event and leaves the active id unchanged. (2) An id is adopted only by a
touch-start event: if processing leaves some active id, it was already active
or the event was a touch-start. (3) However, when no touch id is active,
touch-move, touch-end and touch-cancel do drive pointer emulation (the
emulation guard also passes when the slot is empty): move emits
pointer-move, end emits primary button-up then pointer-left, cancel emits
pointer-left; none of them adopts an id. -/
theorem C8_non_active_touch :
    (∀ (e : TouchEvent) (pp : Nat) (m : Modifiers) (t : Nat),
      t ≠ e.id →
      writeTouchEvent e pp m (some t) =
        ([.touch e.window e.id e.phase pp], some t)) ∧
    (∀ (e : TouchEvent) (pp : Nat) (m : Modifiers) (s : Option Nat) (x : Nat),
      (writeTouchEvent e pp m s).2 = some x →
      s = some x ∨ e.phase = .start) ∧
    (∀ (e : TouchEvent) (pp : Nat) (m : Modifiers),
      (e.phase = .move →
        writeTouchEvent e pp m none =
          ([.touch e.window e.id e.phase pp, .pointerMoved pp], none)) ∧
      (e.phase = .finish →
        writeTouchEvent e pp m none =
          ([.touch e.window e.id e.phase pp,
            .pointerButton pp .primary false m, .pointerGone], none)) ∧
      (e.phase = .cancel →
        writeTouchEvent e pp m none =
          ([.touch e.window e.id e.phase pp, .pointerGone], none))) := by
  refine ⟨?_, ?_, ?_⟩
  · intro e pp m t ht
    simp [writeTouchEvent, ht]
  · intro e pp m s x h
    cases s with
    | none =>
      cases hph : e.phase <;> simp [writeTouchEvent, hph] at h <;> simp [hph, h]
    | some t =>
      by_cases ht : t = e.id
      · subst ht
        cases hph : e.phase <;> simp [writeTouchEvent, hph] at h <;>
          simp [hph, ← h]
      · simp [writeTouchEvent, ht] at h
        exact Or.inl (by rw [h])
  · intro e pp m
    refine ⟨?_, ?_, ?_⟩ <;> intro hph <;> simp [writeTouchEvent, hph]

/-- Witness for C8 at concrete inputs: a touch-move with id 4 while id 7 is
active passes through as the raw touch event only; a touch-move processed
from the empty slot leaves no adopted id (per the adoption conjunct) and
emits an emulated pointer-move (per the no-active conjunct). -/
theorem C8_non_active_touch_witness :
    writeTouchEvent ⟨1, 4, .move, 3⟩ 3 ⟨false, false, false, false, false⟩ (some 7) =
      ([.touch 1 4 .move 3], some 7) ∧
    (writeTouchEvent ⟨1, 4, .move, 3⟩ 3 ⟨false, false, false, false, false⟩ none =
      ([.touch 1 4 .move 3, .pointerMoved 3], none)) ∧
    ((some 5 : Option Nat) = some 5 ∨
      (⟨1, 5, .move, 3⟩ : TouchEvent).phase = .start) := by
  refine ⟨?_, ?_, ?_⟩
  · exact C8_non_active_touch.1 ⟨1, 4, .move, 3⟩ 3 ⟨false, false, false, false, false⟩ 7
      (by decide)
  · exact (C8_non_active_touch.2.2 ⟨1, 4, .move, 3⟩ 3
      ⟨false, false, false, false, false⟩).1 rfl
  · exact C8_non_active_touch.2.1 ⟨1, 5, .move, 3⟩ 3 ⟨false, false, false, false, false⟩
      (some 5) 5 (by decide)

/-- Counterexample to C8 as frozen. The claim says touch-move/end/cancel
events arriving while no touch id is active drive no pointer emulation; in
the code the emulation guard `pointer_touch_id.is_none() || ... == event.id`
also passes when the slot is empty, so a touch-move with no active id emits
an emulated pointer-move event. -/
theorem C8_non_active_touch_counterexample :
    (writeTouchEvent ⟨0, 5, .move, 3⟩ 3 ⟨false, false, false, false, false⟩
        none).1.filter isPointerEmulationEvent = [.pointerMoved 3] ∧
    ((writeTouchEvent ⟨0, 5, .move, 3⟩ 3 ⟨false, false, false, false, false⟩
        none).1.filter isPointerEmulationEvent ≠ []) := by
  refine ⟨by decide, by decide⟩

/-! ### Focus redirection updates (`write_pointer_button_events_system`,
`write_window_touch_events_system`, src/input.rs) -/

/-- `bevy_input::mouse::MouseButton` (the cases matched by the system, plus
the unmapped `Other`). -/
inductive MouseButton where
  | left
  | right
  | middle
  | back
  | forward
  | other
deriving Repr, DecidableEq

/-- The button mapping of `write_pointer_button_events_system`; `none` makes
the system `continue` without any side effect. -/
def mouseButtonToEgui : MouseButton → Option PointerButton
  | .left => some .primary
  | .right => some .secondary
  | .middle => some .middle
  | .back => some .extra1
  | .forward => some .extra2
  | .other => none

/-- `bevy_input::mouse::MouseButtonInput`; `pressed` is
`ButtonState::Pressed`. -/
structure MouseButtonEvent where
  window : Nat
  button : MouseButton
  pressed : Bool
deriving Repr, DecidableEq

/-- Effect of one `(event, context)` pair of
`write_pointer_button_events_system` (src/input.rs:394-458) on the
`FocusedNonWindowEguiContext` slot. `ctxValid c` models the
`egui_contexts.get_some(context)` query succeeding, `ctxEnabled c` the
`run_write_pointer_button_events_system` per-context setting,
`enableFocusUpdates` the global
`enable_focused_non_window_context_updates` flag, `hovered` the
`HoveredNonWindowEguiContext` slot captured before the loop. On a pressed
mapped button the slot is set to the hover target (insert) or cleared
(remove); everything else leaves it alone. -/
def pointerButtonFocusStep (enableFocusUpdates : Bool) (hovered : Option Nat)
    (ctxValid ctxEnabled : Nat → Bool) (focus : Option Nat)
    (p : MouseButtonEvent × Nat) : Option Nat :=
  if !(ctxValid p.2) then focus
  else if !(ctxEnabled p.2) then focus
  else
    match mouseButtonToEgui p.1.button with
    | none => focus
    | some _ =>
      if enableFocusUpdates && p.1.pressed then hovered else focus

/-- Focus-slot state after the system processed a whole pair sequence. -/
def pointerButtonFocusRun (enableFocusUpdates : Bool) (hovered : Option Nat)
    (ctxValid ctxEnabled : Nat → Bool) (focus : Option Nat)
    (ps : List (MouseButtonEvent × Nat)) : Option Nat :=
  ps.foldl (pointerButtonFocusStep enableFocusUpdates hovered ctxValid ctxEnabled) focus

/-- Effect of one `(event, context)` pair of
`write_window_touch_events_system` (src/input.rs:829-875) on the
`FocusedNonWindowEguiContext` slot: after the context query succeeds, a
touch-start sets the slot to the hover target or clears it — note this
happens before the `run_write_window_touch_events_system` check, so no
enabled-flag parameter appears; other phases leave the slot alone. -/
def touchFocusStep (enableFocusUpdates : Bool) (hovered : Option Nat)
    (ctxValid : Nat → Bool) (focus : Option Nat) (p : TouchEvent × Nat) :
    Option Nat :=
  if !(ctxValid p.2) then focus
  else if enableFocusUpdates && (p.1.phase == .start) then hovered
  else focus

/-- Focus-slot state after the touch system processed a pair sequence. -/
def touchFocusRun (enableFocusUpdates : Bool) (hovered : Option Nat)
    (ctxValid : Nat → Bool) (focus : Option Nat) (ps : List (TouchEvent × Nat)) :
    Option Nat :=
  ps.foldl (touchFocusStep enableFocusUpdates hovered ctxValid) focus

/-- Claim C5 (amended): the focused-non-window-context slot changes only when
a mouse-button press of one of the five mapped buttons
(left/right/middle/back/forward — not only primary) or a touch-start event is
processed with a resolvable context; on such an event it is set to the hover
target if one exists and cleared otherwise; button releases, unmapped
buttons, and non-start touch phases never modify it, so it persists across
frames until the next qualifying press. -/
theorem C5_focus_redirection :
    (∀ (hov : Option Nat) (cv ce : Nat → Bool) (focus : Option Nat)
        (ev : MouseButtonEvent) (c : Nat) (b : PointerButton),
      cv c = true → ce c = true → mouseButtonToEgui ev.button = some b →
      ev.pressed = true →
      pointerButtonFocusStep true hov cv ce focus (ev, c) = hov) ∧
    (∀ (g : Bool) (hov : Option Nat) (cv ce : Nat → Bool) (focus : Option Nat)
        (ev : MouseButtonEvent) (c : Nat),
      ev.pressed = false ∨ mouseButtonToEgui ev.button = none →
      pointerButtonFocusStep g hov cv ce focus (ev, c) = focus) ∧
    (∀ (hov : Option Nat) (cv : Nat → Bool) (focus : Option Nat)
        (ev : TouchEvent) (c : Nat),
      cv c = true → ev.phase = .start →
      touchFocusStep true hov cv focus (ev, c) = hov) ∧
    (∀ (g : Bool) (hov : Option Nat) (cv : Nat → Bool) (focus : Option Nat)
        (ev : TouchEvent) (c : Nat),
      ev.phase ≠ .start →
      touchFocusStep g hov cv focus (ev, c) = focus) ∧
    (∀ (g : Bool) (hov : Option Nat) (cv ce : Nat → Bool) (focus : Option Nat)
        (ps : List (MouseButtonEvent × Nat)),
      (∀ p ∈ ps, p.1.pressed = false) →
      pointerButtonFocusRun g hov cv ce focus ps = focus) ∧
    (∀ (g : Bool) (hov : Option Nat) (cv : Nat → Bool) (focus : Option Nat)
        (ps : List (TouchEvent × Nat)),
      (∀ p ∈ ps, p.1.phase ≠ .start) →
      touchFocusRun g hov cv focus ps = focus) := by
  refine ⟨?_, ?_, ?_, ?_, ?_, ?_⟩
  · intro hov cv ce focus ev c b hcv hce hb hp
    simp [pointerButtonFocusStep, hcv, hce, hb, hp]
  · intro g hov cv ce focus ev c h
    rcases h with h | h <;>
      simp [pointerButtonFocusStep, h] <;>
      cases hb : mouseButtonToEgui ev.button <;> simp
  · intro hov cv focus ev c hcv hph
    simp [touchFocusStep, hcv, hph]
  · intro g hov cv focus ev c hph
    simp [touchFocusStep, hph]
  · intro g hov cv ce focus ps hps
    induction ps generalizing focus with
    | nil => rfl
    | cons p rest ih =>
      have hstep : pointerButtonFocusStep g hov cv ce focus p = focus := by
        obtain ⟨ev, c⟩ := p
        have := hps (ev, c) (List.mem_cons_self _ _)
        simp only at this
        simp [pointerButtonFocusStep, this]
        cases hb : mouseButtonToEgui ev.button <;> simp
      simp only [pointerButtonFocusRun, List.foldl_cons, hstep]
      exact ih focus fun q hq => hps q (List.mem_cons_of_mem _ hq)
  · intro g hov cv focus ps hps
    induction ps generalizing focus with
    | nil => rfl
    | cons p rest ih =>
      have hstep : touchFocusStep g hov cv focus p = focus := by
        obtain ⟨ev, c⟩ := p
        have := hps (ev, c) (List.mem_cons_self _ _)
        simp only at this
        simp [touchFocusStep, this]
      simp only [touchFocusRun, List.foldl_cons, hstep]
      exact ih focus fun q hq => hps q (List.mem_cons_of_mem _ hq)

/-- Witness for C5 at concrete inputs: a pressed left button with hover
target 7 sets focus to 7; a released left button, a non-start touch phase and
an all-release sequence leave focus unchanged; a touch-start sets focus to
the hover target. -/
theorem C5_focus_redirection_witness :
    pointerButtonFocusStep true (some 7) (fun _ => true) (fun _ => true) none
      (⟨0, .left, true⟩, 7) = some 7 ∧
    pointerButtonFocusStep true (some 7) (fun _ => true) (fun _ => true)
      (some 3) (⟨0, .left, false⟩, 7) = some 3 ∧
    touchFocusStep true (some 7) (fun _ => true) none (⟨0, 1, .start, 2⟩, 7)
      = some 7 ∧
    touchFocusStep true (some 7) (fun _ => true) (some 3) (⟨0, 1, .move, 2⟩, 7)
      = some 3 ∧
    pointerButtonFocusRun true (some 7) (fun _ => true) (fun _ => true)
      (some 3) [(⟨0, .left, false⟩, 7), (⟨0, .right, false⟩, 7)] = some 3 := by
  refine ⟨?_, ?_, ?_, ?_, ?_⟩
  · exact C5_focus_redirection.1 (some 7) (fun _ => true) (fun _ => true) none
      ⟨0, .left, true⟩ 7 .primary rfl rfl rfl rfl
  · exact C5_focus_redirection.2.1 true (some 7) (fun _ => true) (fun _ => true)
      (some 3) ⟨0, .left, false⟩ 7 (Or.inl rfl)
  · exact C5_focus_redirection.2.2.1 (some 7) (fun _ => true) none
      ⟨0, 1, .start, 2⟩ 7 rfl rfl
  · exact C5_focus_redirection.2.2.2.1 true (some 7) (fun _ => true) (some 3)
      ⟨0, 1, .move, 2⟩ 7 (by decide)
  · exact C5_focus_redirection.2.2.2.2.1 true (some 7) (fun _ => true)
      (fun _ => true) (some 3) [(⟨0, .left, false⟩, 7), (⟨0, .right, false⟩, 7)]
      (by decide)

/-- Counterexample to C5 as frozen: the claim says only a primary-button
press (or touch-start) may modify the focus slot, but the code updates it on
any pressed mapped button — a pressed secondary (right) button with hover
target 7 changes the slot from empty to 7. -/
theorem C5_focus_redirection_counterexample :
    pointerButtonFocusStep true (some 7) (fun _ => true) (fun _ => true) none
      (⟨0, .right, true⟩, 7) = some 7 ∧
    pointerButtonFocusStep true (some 7) (fun _ => true) (fun _ => true) none
      (⟨0, .right, true⟩, 7) ≠ none := by
  refine ⟨by decide, by decide⟩

end BevyEgui
